import Mathlib

/-!
# Verification of the codeledger/gildash core against its specification

This file gives a shallow embedding, in Lean 4, of the parts of the
repository that the specification's testable properties talk about:

* the watcher ownership protocol (`src/watcher/ownership.ts`,
  `acquireWatcherRole` / `releaseWatcherRole` / `updateHeartbeat`);
* the facade parse operations (`parseSource`, `batchParse`,
  `getParsedAst` over a `GildashContext`);
* the structural pattern search (`src/search/pattern-search.ts`);
* the dependency graph engine (`build`, `patchFiles`, `hasCycle`,
  `getCyclePaths`); the class implementation itself is not part of the
  source tree that was provided (only its property tests and design
  documents are), so those definitions are modelled from the
  specification's own description and marked as such.

TypeScript functions are translated to pure Lean functions; the injected
environment (clock, liveness probe, date parser, parser functions, file
reader, search engine) becomes explicit function-valued parameters, and
mutation of the singleton ownership row becomes explicit state passing on
an `Option` state.  JavaScript number arithmetic on millisecond epochs is
modelled with `Int` and floor division (`Int.fdiv`), matching
`Math.floor((now - ms) / 1000)` on integral inputs.
-/

namespace Codeledger

/-! ## Watcher ownership protocol (from `src/watcher/ownership.ts`) -/

/-- The watcher role returned by `acquireWatcherRole`. -/
inductive WatcherRole where
  | owner
  | reader
deriving DecidableEq, Repr

/-- The singleton `watcher_owner` row (`interface WatcherOwnerRow`). -/
structure OwnerRow where
  pid : Int
  heartbeat_at : String
  instance_id : Option String
deriving DecidableEq, Repr

/-- The injected environment of `acquireWatcherRole`: `options.now` (epoch
milliseconds), the timestamp string the store writes into fresh rows
(`new Date().toISOString()` in the store), the JavaScript date parser used
by `toEpochMs` (`new Date(value).getTime()`, `none` when the result is
`NaN`), the liveness probe, the stale threshold and the caller's optional
instance identifier. -/
structure AcquireEnv where
  now : Int
  nowIso : String
  parseDate : String → Option Int
  isAlive : Int → Bool
  staleAfterSeconds : Int
  instanceId : Option String

/-- JavaScript truthiness of an optional string: `undefined`/`null` and
the empty string are falsy, every other string is truthy. -/
def strTruthy : Option String → Bool
  | none => false
  | some s => s ≠ ""

/-- `toEpochMs` from `ownership.ts`: parse the heartbeat timestamp,
an unparsable value (`Number.isNaN(ms)`) is mapped to `0`. -/
def toEpochMs (env : AcquireEnv) (value : String) : Int :=
  (env.parseDate value).getD 0

/-- The heartbeat age in whole seconds computed by `acquireWatcherRole`:
`Math.floor((now() - toEpochMs(owner.heartbeat_at)) / 1000)`. -/
def heartbeatAge (env : AcquireEnv) (owner : OwnerRow) : Int :=
  Int.fdiv (env.now - toEpochMs env owner.heartbeat_at) 1000

/-- The PID-recycling test of `acquireWatcherRole` (minus the `pidAlive`
conjunct, which is kept separate in the theorems below):
`instanceId && owner.instance_id && owner.instance_id !== instanceId &&
owner.pid !== pid`. -/
def recycleCheck (env : AcquireEnv) (owner : OwnerRow) (pid : Int) : Bool :=
  strTruthy env.instanceId && strTruthy owner.instance_id &&
    (owner.instance_id != env.instanceId) && (owner.pid != pid)

/-- `insertOwner(pid, instanceId)` of the `WatcherOwnerStore`: writes the
row `(pid, now-ISO, instanceId ?? null)` (semantics of the store fake in
`ownership.spec.ts`; the spec keeps at most one row, hence the `Option`
state). -/
def insertOwner (env : AcquireEnv) (pid : Int) (instanceId : Option String) :
    Option OwnerRow :=
  some ⟨pid, env.nowIso, instanceId⟩

/-- `replaceOwner(pid, instanceId)`: same single-row replacement. -/
def replaceOwner (env : AcquireEnv) (pid : Int) (instanceId : Option String) :
    Option OwnerRow :=
  some ⟨pid, env.nowIso, instanceId⟩

/-- `acquireWatcherRole(db, pid, options)` from `ownership.ts`, as a state
transformer on the singleton ownership row.  Returns the role together
with the row state after the immediate transaction. -/
def acquireWatcherRole (env : AcquireEnv) (st : Option OwnerRow) (pid : Int) :
    WatcherRole × Option OwnerRow :=
  match st with
  | none => (.owner, insertOwner env pid env.instanceId)
  | some owner =>
    if env.isAlive owner.pid && recycleCheck env owner pid then
      (.owner, replaceOwner env pid env.instanceId)
    else if env.isAlive owner.pid &&
        decide (heartbeatAge env owner < env.staleAfterSeconds) then
      (.reader, st)
    else
      (.owner, replaceOwner env pid env.instanceId)

/-- `releaseWatcherRole` / `deleteOwner(pid)`: delete the row iff its pid
matches. -/
def releaseWatcherRole (st : Option OwnerRow) (pid : Int) : Option OwnerRow :=
  match st with
  | none => none
  | some owner => if owner.pid = pid then none else some owner

/-- C3: for an existing row whose stored pid is alive and for which the
PID-recycling branch does not apply, `acquire` returns `reader` with the
row unchanged exactly when the whole-second heartbeat age is strictly
below `staleAfterSeconds`; an age exactly equal to the threshold is
stale, so `acquire` installs the caller and returns `owner`. -/
theorem acquire_fresh_reader_iff_boundary_stale (env : AcquireEnv)
    (owner : OwnerRow) (pid : Int)
    (halive : env.isAlive owner.pid = true)
    (hrec : recycleCheck env owner pid = false) :
    ((acquireWatcherRole env (some owner) pid = (.reader, some owner)) ↔
      heartbeatAge env owner < env.staleAfterSeconds) ∧
    (heartbeatAge env owner = env.staleAfterSeconds →
      acquireWatcherRole env (some owner) pid =
        (.owner, some ⟨pid, env.nowIso, env.instanceId⟩)) := by
  by_cases hlt : heartbeatAge env owner < env.staleAfterSeconds
  · have hres : acquireWatcherRole env (some owner) pid = (.reader, some owner) := by
      simp [acquireWatcherRole, hrec, halive, hlt]
    refine ⟨by simp [hres, hlt], fun heq => ?_⟩
    rw [heq] at hlt
    exact absurd hlt (lt_irrefl _)
  · have hres : acquireWatcherRole env (some owner) pid =
        (.owner, some ⟨pid, env.nowIso, env.instanceId⟩) := by
      simp [acquireWatcherRole, hrec, halive, hlt, replaceOwner]
    exact ⟨by simp [hres, hlt], fun _ => hres⟩

/-- Witness for C3 at a concrete input: heartbeat parses to epoch `0`,
`now = 90000` ms, threshold `90` s, so the age is exactly the threshold
and the caller takes over. -/
theorem acquire_boundary_stale_witness :
    acquireWatcherRole ⟨90000, "2020-iso", fun _ => some 0, fun _ => true, 90, none⟩
        (some ⟨7, "1970-01-01T00:00:00.000Z", none⟩) 100 =
      (.owner, some ⟨100, "2020-iso", none⟩) :=
  (acquire_fresh_reader_iff_boundary_stale
      ⟨90000, "2020-iso", fun _ => some 0, fun _ => true, 90, none⟩
      ⟨7, "1970-01-01T00:00:00.000Z", none⟩ 100 (by decide) (by decide)).2 (by decide)

/-- C4: when the stored pid is alive, both sides supply (truthy) instance
identifiers and they differ, then if additionally the stored pid differs
from the caller's pid, `acquire` replaces the row with
`(pid, now, instanceId)` and returns `owner`; when instead the stored pid
equals the caller's pid, the recycling branch is skipped and `acquire`
falls through to the staleness check. -/
theorem acquire_pid_recycling_branch (env : AcquireEnv)
    (owner : OwnerRow) (pid : Int)
    (halive : env.isAlive owner.pid = true)
    (hi : strTruthy env.instanceId = true)
    (ho : strTruthy owner.instance_id = true)
    (hne : owner.instance_id ≠ env.instanceId) :
    (owner.pid ≠ pid →
      acquireWatcherRole env (some owner) pid =
        (.owner, some ⟨pid, env.nowIso, env.instanceId⟩)) ∧
    (owner.pid = pid →
      ((heartbeatAge env owner < env.staleAfterSeconds →
          acquireWatcherRole env (some owner) pid = (.reader, some owner)) ∧
        (env.staleAfterSeconds ≤ heartbeatAge env owner →
          acquireWatcherRole env (some owner) pid =
            (.owner, some ⟨pid, env.nowIso, env.instanceId⟩)))) := by
  constructor
  · intro hpid
    have hc : (env.isAlive owner.pid && recycleCheck env owner pid) = true := by
      simp [recycleCheck, halive, hi, ho, bne_iff_ne, hne, hpid]
    simp [acquireWatcherRole, hc, replaceOwner]
  · intro hpid
    have hrecF : recycleCheck env owner pid = false := by
      simp [recycleCheck, hpid]
    constructor
    · intro hlt
      simp [acquireWatcherRole, hrecF, halive, hlt]
    · intro hge
      have hlt : ¬ heartbeatAge env owner < env.staleAfterSeconds := not_lt.mpr hge
      simp [acquireWatcherRole, hrecF, halive, hlt, replaceOwner]

/-- Witness for C4 at a concrete input: live stored pid `7` with instance
id `"old"`, caller pid `100` with instance id `"new"`; the recycling
branch fires and the caller becomes owner. -/
theorem acquire_pid_recycling_witness :
    acquireWatcherRole ⟨5000, "T-iso", fun _ => some 5000, fun _ => true, 90, some "new"⟩
        (some ⟨7, "hb", some "old"⟩) 100 =
      (.owner, some ⟨100, "T-iso", some "new"⟩) :=
  (acquire_pid_recycling_branch
      ⟨5000, "T-iso", fun _ => some 5000, fun _ => true, 90, some "new"⟩
      ⟨7, "hb", some "old"⟩ 100 (by decide) (by decide) (by decide) (by decide)).1
    (by decide)

/-- C5: whenever `acquire` returns `owner`, the (at most singleton)
`watcher_owner` state holds exactly one row and its pid is the caller's,
on every return path (empty-row insert, PID-recycling replacement, and
dead-or-stale takeover). -/
theorem acquire_owner_single_caller_row (env : AcquireEnv)
    (st : Option OwnerRow) (pid : Int)
    (h : (acquireWatcherRole env st pid).1 = .owner) :
    ∃ row, (acquireWatcherRole env st pid).2 = some row ∧ row.pid = pid := by
  cases st with
  | none => exact ⟨⟨pid, env.nowIso, env.instanceId⟩, rfl, rfl⟩
  | some owner =>
    by_cases h1 : (env.isAlive owner.pid && recycleCheck env owner pid) = true
    · exact ⟨⟨pid, env.nowIso, env.instanceId⟩, by simp [acquireWatcherRole, h1, replaceOwner], rfl⟩
    · rw [Bool.not_eq_true] at h1
      by_cases h2 : (env.isAlive owner.pid &&
          decide (heartbeatAge env owner < env.staleAfterSeconds)) = true
      · exfalso
        have : (acquireWatcherRole env (some owner) pid).1 = .reader := by
          simp [acquireWatcherRole, h1, h2]
        rw [h] at this
        exact absurd this (by decide)
      · rw [Bool.not_eq_true] at h2
        exact ⟨⟨pid, env.nowIso, env.instanceId⟩,
          by simp [acquireWatcherRole, h1, h2, replaceOwner], rfl⟩

/-- Witness for C5 at a concrete input: empty state, the caller inserts
itself and owns the single row. -/
theorem acquire_owner_single_caller_row_witness :
    ∃ row, (acquireWatcherRole ⟨0, "i0", fun _ => none, fun _ => false, 60, none⟩
        none 100).2 = some row ∧ row.pid = 100 :=
  acquire_owner_single_caller_row ⟨0, "i0", fun _ => none, fun _ => false, 60, none⟩
    none 100 (by decide)

/-- Counterexample to C6 as stated: with an unparsable heartbeat the code
maps the timestamp to epoch `0`, so the age is `⌊now / 1000⌋` — not `0`.
Here the stored pid is alive, no recycling applies, and
`staleAfterSeconds = 60 > 0`, yet `acquire` takes over and returns
`owner` instead of `reader`, because `⌊60000 / 1000⌋ = 60` is not below
the threshold. -/
theorem unparsable_heartbeat_not_age_zero_cex :
    acquireWatcherRole ⟨60000, "T1", fun _ => none, fun _ => true, 60, none⟩
        (some ⟨7, "not-a-date", none⟩) 100 =
      (.owner, some ⟨100, "T1", none⟩) := by decide

/-- C6 (amended): an unparsable stored heartbeat timestamp is treated as
epoch `0`, so the heartbeat age is `⌊now / 1000⌋` seconds; consequently,
for a live stored pid with no recycling, `acquire` returns `reader` with
the row unchanged when `⌊now / 1000⌋ < staleAfterSeconds` and otherwise
takes over as `owner`. -/
theorem unparsable_heartbeat_epoch_zero (env : AcquireEnv)
    (owner : OwnerRow) (pid : Int)
    (hparse : env.parseDate owner.heartbeat_at = none)
    (halive : env.isAlive owner.pid = true)
    (hrec : recycleCheck env owner pid = false) :
    (Int.fdiv env.now 1000 < env.staleAfterSeconds →
      acquireWatcherRole env (some owner) pid = (.reader, some owner)) ∧
    (env.staleAfterSeconds ≤ Int.fdiv env.now 1000 →
      acquireWatcherRole env (some owner) pid =
        (.owner, some ⟨pid, env.nowIso, env.instanceId⟩)) := by
  have hage : heartbeatAge env owner = Int.fdiv env.now 1000 := by
    simp [heartbeatAge, toEpochMs, hparse]
  constructor
  · intro hlt
    have hlt' : heartbeatAge env owner < env.staleAfterSeconds := by
      rw [hage]; exact hlt
    simp [acquireWatcherRole, hrec, halive, hlt']
  · intro hge
    have hlt : ¬ heartbeatAge env owner < env.staleAfterSeconds := by
      rw [hage]; exact not_lt.mpr hge
    simp [acquireWatcherRole, hrec, halive, hlt, replaceOwner]

/-- Witness for amended C6: unparsable heartbeat, `now = 30000` ms, so
the age is `30 < 60` and the live owner keeps its row. -/
theorem unparsable_heartbeat_epoch_zero_witness :
    acquireWatcherRole ⟨30000, "T2", fun _ => none, fun _ => true, 60, none⟩
        (some ⟨7, "bad2", none⟩) 100 = (.reader, some ⟨7, "bad2", none⟩) :=
  (unparsable_heartbeat_epoch_zero ⟨30000, "T2", fun _ => none, fun _ => true, 60, none⟩
      ⟨7, "bad2", none⟩ 100 (by decide) (by decide) (by decide)).1 (by decide)

/-- Counterexample to C7 as stated: with `staleAfterSeconds = 0`, a live
stored owner whose heartbeat parses to a time later than `now`
(epoch `2000` ms vs `now = 0`) gives a negative whole-second age
(`⌊-2000 / 1000⌋ = -2 < 0`), so `acquire` returns `reader` and leaves the
row unchanged instead of promoting the caller to `owner`. -/
theorem stale_zero_future_heartbeat_cex :
    acquireWatcherRole ⟨0, "T3", fun _ => some 2000, fun _ => true, 0, none⟩
        (some ⟨7, "future", none⟩) 100 =
      (.reader, some ⟨7, "future", none⟩) := by decide

/-- C7 (amended): calling `acquire` with `staleAfterSeconds = 0` returns
`owner` and installs the caller for every state of the ownership row
whose stored heartbeat does not parse to a time strictly later than
`now` (any stored pid, any liveness result, unparsable timestamps
included). -/
theorem stale_zero_promotes_nonfuture (env : AcquireEnv)
    (st : Option OwnerRow) (pid : Int)
    (hstale : env.staleAfterSeconds = 0)
    (hhb : ∀ owner, st = some owner →
      toEpochMs env owner.heartbeat_at ≤ env.now) :
    acquireWatcherRole env st pid =
      (.owner, some ⟨pid, env.nowIso, env.instanceId⟩) := by
  cases st with
  | none => simp [acquireWatcherRole, insertOwner]
  | some owner =>
    have hnn : (0 : Int) ≤ heartbeatAge env owner := by
      unfold heartbeatAge
      exact Int.fdiv_nonneg (sub_nonneg.mpr (hhb owner rfl)) (by norm_num)
    have hlt : ¬ heartbeatAge env owner < env.staleAfterSeconds := by
      rw [hstale]; exact not_lt.mpr hnn
    cases h1 : (env.isAlive owner.pid && recycleCheck env owner pid) with
    | true => simp [acquireWatcherRole, h1, replaceOwner]
    | false => simp [acquireWatcherRole, h1, hlt, replaceOwner]

/-- Witness for amended C7: threshold `0`, heartbeat at epoch `0 ≤ now`,
the caller is promoted and installed. -/
theorem stale_zero_promotes_nonfuture_witness :
    acquireWatcherRole ⟨5000, "T4", fun _ => some 0, fun _ => true, 0, none⟩
        (some ⟨7, "hb4", none⟩) 100 = (.owner, some ⟨100, "T4", none⟩) :=
  stale_zero_promotes_nonfuture ⟨5000, "T4", fun _ => some 0, fun _ => true, 0, none⟩
    (some ⟨7, "hb4", none⟩) 100 rfl
    (fun owner h => by cases h; decide)

/-! ## Facade parse operations (`parseSource`, `batchParse`,
`getParsedAst` from `src/gildash/parse-source.ts` area) -/

/-- The parsed-file value cached by the context (`ParsedFile` from
`src/parser/types.ts`); the AST program is kept as an opaque blob. -/
structure ParsedFile where
  filePath : String
  program : String
  sourceText : String
deriving DecidableEq, Repr

/-- Errors thrown across the facade boundary: the typed `GildashError`
(with its kind, e.g. `'closed'`) or any other JavaScript error carried as
its message. -/
inductive GErr where
  | gildash (kind : String) (message : String)
  | other (message : String)
deriving DecidableEq, Repr

/-- The typed error thrown by a closed instance:
`new GildashError('closed', 'Gildash: instance is closed')`. -/
def closedErr : GErr := .gildash "closed" "Gildash: instance is closed"

/-- Set a key in an association-list map (`Map.set`): overwrite the
existing entry or append a new one. -/
def mapSet (m : List (String × ParsedFile)) (k : String) (v : ParsedFile) :
    List (String × ParsedFile) :=
  match m with
  | [] => [(k, v)]
  | (a, w) :: rest => if a = k then (a, v) :: rest else (a, w) :: mapSet rest k v

/-- `Map.get` on an association-list map. -/
def mapGet (m : List (String × ParsedFile)) (k : String) : Option ParsedFile :=
  match m with
  | [] => none
  | (a, w) :: rest => if a = k then some w else mapGet rest k

/-- The `GildashContext` fields these operations use: the closed flag,
the parse cache, and the injected parser and file-reader functions
(`ctx.parseSourceFn` returning a result value in the `@zipbul/result`
style, `ctx.readFileFn` which may throw). -/
structure GildashContext where
  closed : Bool
  parseCache : List (String × ParsedFile)
  parseSourceFn : String → String → Except String ParsedFile
  readFileFn : String → Except String String

/-- `parseSource(ctx, filePath, sourceText)`: fail fast when closed,
run the injected parser, rethrow its error, otherwise cache and return
the parsed file (the updated context is returned alongside). -/
def parseSource (ctx : GildashContext) (filePath sourceText : String) :
    Except GErr (ParsedFile × GildashContext) :=
  if ctx.closed then .error closedErr
  else
    match ctx.parseSourceFn filePath sourceText with
    | .error e => .error (.other e)
    | .ok r => .ok (r, { ctx with parseCache := mapSet ctx.parseCache filePath r })

/-- The per-file outcome inside `batchParse`'s worker: read the file
(`readFileFn` may throw) then parse its text; the first failure wins. -/
def fileOutcome (ctx : GildashContext) (fp : String) : Except String ParsedFile :=
  match ctx.readFileFn fp with
  | .error e => .error e
  | .ok text => ctx.parseSourceFn fp text

/-- The `BatchParseResult` of `batchParse`: successfully parsed files and
per-file failures. -/
structure BatchParseResult where
  parsed : List (String × ParsedFile)
  failures : List (String × String)
deriving DecidableEq, Repr

/-- One step of `batchParse`'s accumulation: a success is `set` into the
parsed map, a failure is pushed onto the failures list. -/
def batchStep (ctx : GildashContext) (acc : BatchParseResult) (fp : String) :
    BatchParseResult :=
  match fileOutcome ctx fp with
  | .ok r => { acc with parsed := mapSet acc.parsed fp r }
  | .error e => { acc with failures := acc.failures ++ [(fp, e)] }

/-- `batchParse(ctx, filePaths)`: fail fast when closed; otherwise
process every file, collecting parsed files and per-file failures
(the per-file `try/catch` keeps the batch alive). -/
def batchParse (ctx : GildashContext) (filePaths : List String) :
    Except GErr BatchParseResult :=
  if ctx.closed then .error closedErr
  else .ok (filePaths.foldl (batchStep ctx) ⟨[], []⟩)

/-- `getParsedAst(ctx, filePath)`: returns `undefined` when the context
is closed, otherwise the cache lookup.  The body never throws, so in the
common error channel it is always `.ok`. -/
def getParsedAst (ctx : GildashContext) (filePath : String) :
    Except GErr (Option ParsedFile) :=
  .ok (if ctx.closed then none else mapGet ctx.parseCache filePath)

/-- Counterexample to C8 as stated: on a closed context holding a cached
entry for `"a.ts"`, `getParsedAst` returns the normal value `undefined`
(`.ok none`) — not the typed `closed` error the claim requires of every
public operation. -/
theorem closed_getParsedAst_normal_value_cex :
    getParsedAst ⟨true, [("a.ts", ⟨"a.ts", "prog", "src"⟩)],
        fun _ _ => .error "unused", fun _ => .error "unused"⟩ "a.ts" =
      .ok none := rfl

/-- C8 (amended): once the instance is closed, `parseSource` and
`batchParse` fail fast with the typed `closed` error for every input,
while `getParsedAst` short-circuits to `undefined` without consulting the
cache. -/
theorem closed_operations_fail_fast (ctx : GildashContext)
    (hclosed : ctx.closed = true) :
    (∀ fp src, parseSource ctx fp src = .error closedErr) ∧
    (∀ fps, batchParse ctx fps = .error closedErr) ∧
    (∀ fp, getParsedAst ctx fp = .ok none) := by
  refine ⟨fun fp src => ?_, fun fps => ?_, fun fp => ?_⟩
  · simp [parseSource, hclosed]
  · simp [batchParse, hclosed]
  · simp [getParsedAst, hclosed]

/-- Witness for amended C8 at a concrete closed context. -/
theorem closed_operations_fail_fast_witness :
    parseSource ⟨true, [], fun _ _ => .error "e", fun _ => .error "e"⟩ "f.ts" "s" =
        .error closedErr ∧
      batchParse ⟨true, [], fun _ _ => .error "e", fun _ => .error "e"⟩ ["f.ts"] =
        .error closedErr ∧
      getParsedAst ⟨true, [], fun _ _ => .error "e", fun _ => .error "e"⟩ "f.ts" =
        .ok none :=
  have h := closed_operations_fail_fast
    ⟨true, [], fun _ _ => .error "e", fun _ => .error "e"⟩ (by decide)
  ⟨h.1 "f.ts" "s", h.2.1 ["f.ts"], h.2.2 "f.ts"⟩

/-- `mapGet` after `mapSet` at the same or a different key. -/
theorem mapGet_mapSet (m : List (String × ParsedFile)) (k fp : String)
    (v : ParsedFile) :
    mapGet (mapSet m k v) fp = if k = fp then some v else mapGet m fp := by
  induction m with
  | nil => by_cases h : k = fp <;> simp [mapSet, mapGet, h]
  | cons e rest ih =>
    obtain ⟨a, w⟩ := e
    by_cases hak : a = k
    · subst hak
      by_cases h : a = fp <;> simp [mapSet, mapGet, h]
    · by_cases h : a = fp
      · subst h
        have : ¬ k = a := fun hk => hak hk.symm
        simp [mapSet, mapGet, hak, this]
      · simp [mapSet, mapGet, hak, h, ih]

/-- One `batchStep`'s effect on the parsed map, seen through `mapGet`. -/
theorem batchStep_parsed_lookup (ctx : GildashContext)
    (acc : BatchParseResult) (hd fp : String) :
    mapGet (batchStep ctx acc hd).parsed fp =
      match fileOutcome ctx hd with
      | .ok r' => if hd = fp then some r' else mapGet acc.parsed fp
      | .error _ => mapGet acc.parsed fp := by
  cases hout : fileOutcome ctx hd <;> simp [batchStep, hout, mapGet_mapSet]

/-- The parsed map built by `batchParse`'s fold, characterized per file:
a file's entry is its own (deterministic) outcome when the file is in the
batch and succeeds, and the accumulator's entry otherwise. -/
theorem batch_parsed_lookup (ctx : GildashContext) (fps : List String)
    (acc : BatchParseResult) (fp : String) :
    mapGet (fps.foldl (batchStep ctx) acc).parsed fp =
      match fileOutcome ctx fp with
      | .ok r => if fp ∈ fps then some r else mapGet acc.parsed fp
      | .error _ => mapGet acc.parsed fp := by
  induction fps generalizing acc with
  | nil =>
    cases h : fileOutcome ctx fp <;> simp [h]
  | cons hd tl ih =>
    rw [List.foldl_cons, ih]
    cases h : fileOutcome ctx fp with
    | error e =>
      simp only [h]
      rw [batchStep_parsed_lookup]
      cases hout : fileOutcome ctx hd with
      | error e' => rfl
      | ok r' =>
        have hne : ¬ hd = fp := fun he => by
          rw [he] at hout; rw [hout] at h; cases h
        simp [hne]
    | ok r =>
      simp only [h]
      by_cases hmem : fp ∈ tl
      · simp [hmem]
      · rw [if_neg hmem, batchStep_parsed_lookup]
        by_cases hhd : hd = fp
        · subst hhd
          rw [h]
          simp
        · have hnc : fp ∉ hd :: tl := by
            intro hc
            rcases List.mem_cons.mp hc with h' | h'
            · exact hhd h'.symm
            · exact hmem h'
          rw [if_neg hnc]
          cases hout : fileOutcome ctx hd with
          | error e' => rfl
          | ok r' => simp [hhd]

/-- One `batchStep`'s effect on the failures list. -/
theorem batchStep_failures_mem (ctx : GildashContext)
    (acc : BatchParseResult) (hd fp e : String) :
    (fp, e) ∈ (batchStep ctx acc hd).failures ↔
      (fp, e) ∈ acc.failures ∨ (fp = hd ∧ fileOutcome ctx hd = .error e) := by
  cases hout : fileOutcome ctx hd with
  | ok r => simp [batchStep, hout]
  | error e' =>
    simp only [batchStep, hout, List.mem_append, List.mem_singleton,
      Prod.mk.injEq, Except.error.injEq]
    constructor
    · rintro (h | ⟨hfp, he⟩)
      · exact Or.inl h
      · exact Or.inr ⟨hfp, he.symm⟩
    · rintro (h | ⟨hfp, he⟩)
      · exact Or.inl h
      · exact Or.inr ⟨hfp, he.symm⟩

/-- The failures list built by `batchParse`'s fold, characterized per
file and error. -/
theorem batch_failures_mem (ctx : GildashContext) (fps : List String)
    (acc : BatchParseResult) (fp e : String) :
    (fp, e) ∈ (fps.foldl (batchStep ctx) acc).failures ↔
      (fp, e) ∈ acc.failures ∨ (fp ∈ fps ∧ fileOutcome ctx fp = .error e) := by
  induction fps generalizing acc with
  | nil => simp
  | cons hd tl ih =>
    rw [List.foldl_cons, ih, batchStep_failures_mem]
    constructor
    · rintro ((h | ⟨hfp, hout⟩) | ⟨hmem, hout⟩)
      · exact Or.inl h
      · subst hfp
        exact Or.inr ⟨List.mem_cons_self _ _, hout⟩
      · exact Or.inr ⟨List.mem_cons_of_mem _ hmem, hout⟩
    · rintro (h | ⟨hmem, hout⟩)
      · exact Or.inl (Or.inl h)
      · rcases List.mem_cons.mp hmem with hfp | hfp
        · subst hfp
          exact Or.inl (Or.inr ⟨rfl, hout⟩)
        · exact Or.inr ⟨hfp, hout⟩

/-- C9: on an open context, `batchParse` always succeeds as a whole; a
file whose read or parse fails is recorded in `failures` and omitted from
the parsed map, and every other file of the batch is parsed and present
in the parsed map. -/
theorem batchParse_isolates_failures (ctx : GildashContext)
    (fps : List String) (hopen : ctx.closed = false) :
    ∃ res, batchParse ctx fps = .ok res ∧
      ∀ fp ∈ fps,
        (∀ e, fileOutcome ctx fp = .error e →
          (fp, e) ∈ res.failures ∧ mapGet res.parsed fp = none) ∧
        (∀ r, fileOutcome ctx fp = .ok r → mapGet res.parsed fp = some r) := by
  refine ⟨fps.foldl (batchStep ctx) ⟨[], []⟩, by simp [batchParse, hopen], ?_⟩
  intro fp hmem
  constructor
  · intro e hout
    constructor
    · exact (batch_failures_mem ctx fps ⟨[], []⟩ fp e).mpr
        (Or.inr ⟨hmem, hout⟩)
    · rw [batch_parsed_lookup ctx fps ⟨[], []⟩ fp, hout]
      simp [mapGet]
  · intro r hout
    rw [batch_parsed_lookup ctx fps ⟨[], []⟩ fp, hout]
    simp [hmem]

/-- Witness for C9 at a concrete open context: `"bad.ts"` fails to read
and lands in `failures` only; `"good.ts"` parses and is in the map. -/
theorem batchParse_isolates_failures_witness :
    ∃ res,
      batchParse
          ⟨false, [],
            fun fp text => .ok ⟨fp, "P", text⟩,
            fun fp => if fp = "bad.ts" then .error "EIO" else .ok "txt"⟩
          ["good.ts", "bad.ts"] = .ok res ∧
        ∀ fp ∈ ["good.ts", "bad.ts"],
          (∀ e,
              fileOutcome
                  ⟨false, [],
                    fun fp text => .ok ⟨fp, "P", text⟩,
                    fun fp => if fp = "bad.ts" then .error "EIO" else .ok "txt"⟩
                  fp = .error e →
            (fp, e) ∈ res.failures ∧ mapGet res.parsed fp = none) ∧
          (∀ r,
              fileOutcome
                  ⟨false, [],
                    fun fp text => .ok ⟨fp, "P", text⟩,
                    fun fp => if fp = "bad.ts" then .error "EIO" else .ok "txt"⟩
                  fp = .ok r → mapGet res.parsed fp = some r) :=
  batchParse_isolates_failures
    ⟨false, [],
      fun fp text => .ok ⟨fp, "P", text⟩,
      fun fp => if fp = "bad.ts" then .error "EIO" else .ok "txt"⟩
    ["good.ts", "bad.ts"] (by decide)

/-! ## Structural pattern search (`src/search/pattern-search.ts`) -/

/-- A single structural-pattern match (`PatternMatch`). -/
structure PatternMatch where
  filePath : String
  startLine : Nat
  endLine : Nat
  matchedText : String
deriving DecidableEq, Repr

/-- A matched AST node as delivered by the external engine's callback
(`node.getRoot().filename()`, `node.range()` 0-based lines,
`node.text()`). -/
structure RawNode where
  filename : String
  startLine : Nat
  endLine : Nat
  text : String
deriving DecidableEq, Repr

/-- Options of `patternSearch`. -/
structure PatternSearchOptions where
  pattern : String
  filePaths : List String

/-- Convert an engine node to a `PatternMatch` (1-based line numbers, as
in the callback body). -/
def toPatternMatch (n : RawNode) : PatternMatch :=
  ⟨n.filename, n.startLine + 1, n.endLine + 1, n.text⟩

/-- `patternSearch(opts)` with the external `findInFiles` engine made
explicit: the engine maps (pattern, paths) to the list of callback
invocations, each either an error (skipped by the callback) or a batch of
matched nodes.  The second component counts how many times `findInFiles`
was invoked, so that "the engine is never called" is observable. -/
def patternSearch
    (engine : String → List String → List (Except String (List RawNode)))
    (opts : PatternSearchOptions) : List PatternMatch × Nat :=
  if opts.filePaths.length = 0 then ([], 0)
  else
    ((engine opts.pattern opts.filePaths).foldl
      (fun ms b =>
        match b with
        | .error _ => ms
        | .ok nodes => ms ++ nodes.map toPatternMatch) [], 1)

/-- C10: for every call whose `filePaths` option is the empty array,
`patternSearch` returns an empty match list and never invokes the
external structural search engine. -/
theorem patternSearch_empty_paths_no_engine
    (engine : String → List String → List (Except String (List RawNode)))
    (opts : PatternSearchOptions) (h : opts.filePaths = []) :
    patternSearch engine opts = ([], 0) := by
  simp [patternSearch, h]

/-- Witness for C10 at a concrete input: an engine that would return a
match is never consulted when `filePaths` is empty. -/
theorem patternSearch_empty_paths_no_engine_witness :
    patternSearch (fun _ _ => [.ok [⟨"f.ts", 0, 0, "console.log(1)"⟩]])
      ⟨"console.log($$$)", []⟩ = ([], 0) :=
  patternSearch_empty_paths_no_engine
    (fun _ _ => [.ok [⟨"f.ts", 0, 0, "console.log(1)"⟩]])
    ⟨"console.log($$$)", []⟩ rfl

/-! ## Dependency graph engine

Modelled from the spec: the `DependencyGraph` class itself ships outside
the provided source tree — only its property tests
(`src/search/dependency-graph.property.spec.ts`), benchmarks and design
documents are present — so `build`, `patchFiles` and the cycle queries
below are modelled from §4.7 of the specification: forward and reverse
adjacency maps (`file → set of dependency files`), `build()` assembling
both maps from the relation edges (self-loops preserved), and
`patchFiles(changed, deleted, relationsFor)` removing, for every file in
`changed ∪ deleted`, its outgoing edges from the forward map and its
membership from every reverse entry, then inserting the edges
`relationsFor(file)` for every changed file. -/

/-- An adjacency map as an association list `file → set of files`. -/
abbrev Adj := List (String × List String)

/-- Map lookup on an adjacency list; a missing key is the empty set. -/
def lookupAdj : Adj → String → List String
  | [], _ => []
  | (a, vs) :: rest, k => if a = k then vs else lookupAdj rest k

/-- Edge membership in an adjacency map (the observable of
`getAdjacencyList()`): `b` is recorded as a dependency of `a`. -/
def MemAdj (m : Adj) (a b : String) : Prop :=
  b ∈ lookupAdj m a

instance (m : Adj) (a b : String) : Decidable (MemAdj m a b) := by
  unfold MemAdj
  infer_instance

/-- Add an element to a set represented as a duplicate-free list. -/
def addOnce (l : List String) (x : String) : List String :=
  if x ∈ l then l else l ++ [x]

/-- Add `v` to the entry of key `k`, creating the entry when absent. -/
def addToAdj : Adj → String → String → Adj
  | [], k, v => [(k, [v])]
  | (a, vs) :: rest, k, v =>
    if a = k then (a, addOnce vs v) :: rest else (a, vs) :: addToAdj rest k v

/-- Modelled from the spec: the `DependencyGraph` state — forward
adjacency (`file → dependencies`) and reverse adjacency
(`file → dependents`). -/
structure DepGraph where
  adjacency : Adj
  reverseAdjacency : Adj

/-- Record one relation edge `s → d` in both maps. -/
def addEdgeG (g : DepGraph) (s d : String) : DepGraph :=
  ⟨addToAdj g.adjacency s d, addToAdj g.reverseAdjacency d s⟩

/-- Record a list of relation edges. -/
def addEdges (g : DepGraph) (ps : List (String × String)) : DepGraph :=
  ps.foldl (fun g r => addEdgeG g r.1 r.2) g

/-- Modelled from the spec: `build()` — assemble both adjacency maps from
the full relation set (given as `src → dst` file-path pairs of the
graph-relevant relation types); self-loops are preserved. -/
def buildGraph (rels : List (String × String)) : DepGraph :=
  addEdges ⟨[], []⟩ rels

/-- Remove every entry of key `f` (drop all of `f`'s outgoing edges). -/
def removeKey : Adj → String → Adj
  | [], _ => []
  | (a, vs) :: rest, f =>
    if a = f then removeKey rest f else (a, vs) :: removeKey rest f

/-- Remove `f`'s membership from every entry's value set. -/
def removeVal (m : Adj) (f : String) : Adj :=
  m.map (fun e => (e.1, e.2.filter (fun s => s != f)))

/-- Remove one file's outgoing edges from the forward map and its
membership from every reverse entry. -/
def removeFileG (g : DepGraph) (f : String) : DepGraph :=
  ⟨removeKey g.adjacency f, removeVal g.reverseAdjacency f⟩

/-- Modelled from the spec: `patchFiles(changed, deleted, relationsFor)`
— remove every file of `changed ∪ deleted`, then insert the edges
`relationsFor(file)` for every changed file. -/
def patchFiles (g : DepGraph) (changed deleted : List String)
    (relFor : String → List (String × String)) : DepGraph :=
  let removed := (changed ++ deleted).foldl removeFileG g
  changed.foldl (fun g f => addEdges g (relFor f)) removed

/-- Membership in a set-list after `addOnce`. -/
theorem mem_addOnce (l : List String) (x b : String) :
    b ∈ addOnce l x ↔ b = x ∨ b ∈ l := by
  unfold addOnce
  by_cases h : x ∈ l
  · simp only [if_pos h]
    constructor
    · exact Or.inr
    · rintro (rfl | hb)
      · exact h
      · exact hb
  · simp [h, or_comm]

/-- Lookup after `addToAdj`: the updated key gains `v`, others are
untouched. -/
theorem lookupAdj_addToAdj (m : Adj) (k v a : String) :
    lookupAdj (addToAdj m k v) a =
      if a = k then addOnce (lookupAdj m k) v else lookupAdj m a := by
  induction m with
  | nil =>
    by_cases h : a = k
    · subst h
      simp [addToAdj, lookupAdj, addOnce]
    · have h' : ¬ k = a := fun hh => h hh.symm
      simp [addToAdj, lookupAdj, h, h']
  | cons e rest ih =>
    obtain ⟨c, vs⟩ := e
    by_cases hc : c = k
    · rw [addToAdj, if_pos hc]
      by_cases ha : a = k
      · have hca : c = a := by rw [hc, ha]
        simp [lookupAdj, hca, ha, hc]
      · have hca : ¬ c = a := fun h => ha (h.symm.trans hc)
        simp [lookupAdj, hca, ha]
    · rw [addToAdj, if_neg hc]
      by_cases hca : c = a
      · have ha : ¬ a = k := fun h => hc (hca.trans h)
        simp [lookupAdj, hca, ha]
      · simp [lookupAdj, hca, hc, ih]

/-- Edge membership after `addToAdj`. -/
theorem memAdj_addToAdj (m : Adj) (k v a b : String) :
    MemAdj (addToAdj m k v) a b ↔ (a = k ∧ b = v) ∨ MemAdj m a b := by
  unfold MemAdj
  rw [lookupAdj_addToAdj]
  by_cases h : a = k
  · rw [if_pos h, mem_addOnce, h]
    simp
  · rw [if_neg h]
    simp [h]

/-- Edge membership after inserting a list of edges. -/
theorem memAdj_addEdges (ps : List (String × String)) (g : DepGraph)
    (a b : String) :
    MemAdj (addEdges g ps).adjacency a b ↔
      (a, b) ∈ ps ∨ MemAdj g.adjacency a b := by
  induction ps generalizing g with
  | nil => simp [addEdges]
  | cons p tl ih =>
    obtain ⟨s, d⟩ := p
    rw [addEdges, List.foldl_cons]
    have step := ih (addEdgeG g s d)
    rw [addEdges] at step
    rw [step, addEdgeG, memAdj_addToAdj]
    constructor
    · rintro (h | ⟨rfl, rfl⟩ | h)
      · exact Or.inl (List.mem_cons_of_mem _ h)
      · exact Or.inl (List.mem_cons_self _ _)
      · exact Or.inr h
    · rintro (h | h)
      · rcases List.mem_cons.mp h with h' | h'
        · rw [Prod.ext_iff] at h'
          exact Or.inr (Or.inl h')
        · exact Or.inl h'
      · exact Or.inr (Or.inr h)

/-- Edge membership in a freshly built graph is exactly membership in the
relation set. -/
theorem memAdj_buildGraph (rels : List (String × String)) (a b : String) :
    MemAdj (buildGraph rels).adjacency a b ↔ (a, b) ∈ rels := by
  rw [buildGraph, memAdj_addEdges]
  simp [MemAdj, lookupAdj]

/-- Lookup after removing a key. -/
theorem lookupAdj_removeKey (m : Adj) (f a : String) :
    lookupAdj (removeKey m f) a = if a = f then [] else lookupAdj m a := by
  induction m with
  | nil => simp [removeKey, lookupAdj]
  | cons e rest ih =>
    obtain ⟨c, vs⟩ := e
    by_cases hc : c = f
    · rw [removeKey, if_pos hc, ih]
      by_cases ha : a = f
      · simp [ha]
      · have hca : ¬ c = a := fun h => ha (h.symm.trans hc)
        simp [ha, lookupAdj, hca]
    · rw [removeKey, if_neg hc]
      by_cases hca : c = a
      · have ha : ¬ a = f := fun h => hc (hca.trans h)
        simp [lookupAdj, hca, ha]
      · simp [lookupAdj, hca, ih]

/-- Edge membership after removing one file's outgoing edges. -/
theorem memAdj_removeFileG (g : DepGraph) (f a b : String) :
    MemAdj (removeFileG g f).adjacency a b ↔
      a ≠ f ∧ MemAdj g.adjacency a b := by
  unfold MemAdj removeFileG
  rw [lookupAdj_removeKey]
  by_cases h : a = f <;> simp [h]

/-- Edge membership after removing a list of files. -/
theorem memAdj_removeFiles (fs : List String) (g : DepGraph) (a b : String) :
    MemAdj ((fs.foldl removeFileG g).adjacency) a b ↔
      a ∉ fs ∧ MemAdj g.adjacency a b := by
  induction fs generalizing g with
  | nil => simp
  | cons hd tl ih =>
    rw [List.foldl_cons, ih, memAdj_removeFileG]
    constructor
    · rintro ⟨htl, hhd, hm⟩
      refine ⟨fun hc => ?_, hm⟩
      rcases List.mem_cons.mp hc with h' | h'
      · exact hhd h'
      · exact htl h'
    · rintro ⟨hmem, hm⟩
      exact ⟨fun h => hmem (List.mem_cons_of_mem _ h),
        fun h => hmem (h ▸ List.mem_cons_self _ _), hm⟩

/-- Edge membership after the insertion phase of `patchFiles`. -/
theorem memAdj_patchInsert (changed : List String)
    (relFor : String → List (String × String)) (g : DepGraph) (a b : String) :
    MemAdj ((changed.foldl (fun g f => addEdges g (relFor f)) g).adjacency) a b ↔
      (∃ f ∈ changed, (a, b) ∈ relFor f) ∨ MemAdj g.adjacency a b := by
  induction changed generalizing g with
  | nil => simp
  | cons hd tl ih =>
    rw [List.foldl_cons, ih, memAdj_addEdges]
    constructor
    · rintro (⟨f, hf, hp⟩ | hp | hm)
      · exact Or.inl ⟨f, List.mem_cons_of_mem _ hf, hp⟩
      · exact Or.inl ⟨hd, List.mem_cons_self _ _, hp⟩
      · exact Or.inr hm
    · rintro (⟨f, hf, hp⟩ | hm)
      · rcases List.mem_cons.mp hf with h' | h'
        · exact Or.inr (Or.inl (h' ▸ hp))
        · exact Or.inl ⟨f, h', hp⟩
      · exact Or.inr (Or.inr hm)

/-- C2: for every relation set and every `changed`/`deleted` covering it
(every relation's source file is in `changed`, and `relationsFor` returns
per changed file exactly the full set's edges out of that file),
`patchFiles` on a freshly built graph yields an adjacency structure equal
as a set of edges to a fresh `build()` over the same full relation
set. -/
theorem patchFiles_eq_fresh_build (rels : List (String × String))
    (changed deleted : List String)
    (relFor : String → List (String × String))
    (hcov : ∀ r ∈ rels, r.1 ∈ changed)
    (hrel : ∀ f ∈ changed, ∀ p : String × String,
      p ∈ relFor f ↔ p ∈ rels ∧ p.1 = f) :
    ∀ a b,
      MemAdj (patchFiles (buildGraph rels) changed deleted relFor).adjacency a b ↔
        MemAdj (buildGraph rels).adjacency a b := by
  intro a b
  rw [patchFiles, memAdj_patchInsert, memAdj_removeFiles, memAdj_buildGraph]
  constructor
  · rintro (⟨f, hf, hp⟩ | ⟨_, hm⟩)
    · exact ((hrel f hf (a, b)).mp hp).1
    · exact hm
  · intro hm
    have ha : a ∈ changed := hcov (a, b) hm
    exact Or.inl ⟨a, ha, (hrel a ha (a, b)).mpr ⟨hm, rfl⟩⟩

/-- Witness for C2 at a concrete input: three edges (a self-loop
included), all source and destination files changed, nothing deleted,
`relationsFor` filtering the full relation set. -/
theorem patchFiles_eq_fresh_build_witness :
    MemAdj (patchFiles (buildGraph [("a", "b"), ("b", "a"), ("b", "b")])
        ["a", "b"] []
        (fun f => [("a", "b"), ("b", "a"), ("b", "b")].filter
          (fun p => p.1 == f))).adjacency "a" "b" ↔
      MemAdj (buildGraph [("a", "b"), ("b", "a"), ("b", "b")]).adjacency "a" "b" :=
  patchFiles_eq_fresh_build [("a", "b"), ("b", "a"), ("b", "b")]
    ["a", "b"] []
    (fun f => [("a", "b"), ("b", "a"), ("b", "b")].filter (fun p => p.1 == f))
    (by decide)
    (fun f _ p => by simp [List.mem_filter]) "a" "b"

/-! ### Cycle detection and simple-cycle enumeration

Modelled from the spec: `hasCycle()` is "true iff Tarjan SCC produces a
component of size > 1 or any self-loop exists", rendered as: some vertex
has a self-loop edge, or two distinct vertices are mutually reachable.
`cyclePaths()` "enumerates simple cycles using Johnson's algorithm over
each non-trivial SCC"; its observable output is rendered as the finite
enumeration of all simple cycles (closed edge-chains
`[v₀, …, vₖ, v₀]` with distinct `v₀ … vₖ`) of the graph's edge set. -/

/-- An edge of the graph's relation set. -/
def hasEdge (es : List (String × String)) (a b : String) : Prop :=
  (a, b) ∈ es

instance (es : List (String × String)) : DecidableRel (hasEdge es) :=
  fun _ _ => by unfold hasEdge; infer_instance

/-- Reachability along the graph's edges: a nonempty vertex list chained
by edges from `u` to `v` (`u` reaches itself by the single-vertex
walk). -/
def Reaches (es : List (String × String)) (u v : String) : Prop :=
  ∃ l : List String, l ≠ [] ∧ l.Chain' (hasEdge es) ∧
    l.head? = some u ∧ l.getLast? = some v

/-- Modelled from the spec: `hasCycle()` — a self-loop exists, or some
Tarjan SCC has size > 1, i.e. two distinct vertices are mutually
reachable. -/
def HasCycleSpec (es : List (String × String)) : Prop :=
  (∃ v, hasEdge es v v) ∨
    ∃ u v, u ≠ v ∧ Reaches es u v ∧ Reaches es v u

/-- A simple cycle in the representation `[v₀, …, vₖ₋₁, v₀]`: at least
one edge, consecutive elements are edges, first element equals last, and
the vertices with the closing repetition removed are pairwise
distinct. -/
def IsSimpleCycle (es : List (String × String)) (l : List String) : Prop :=
  2 ≤ l.length ∧ l.Chain' (hasEdge es) ∧ l.head? = l.getLast? ∧
    l.dropLast.Nodup

instance (es : List (String × String)) (l : List String) :
    Decidable (IsSimpleCycle es l) := by
  unfold IsSimpleCycle
  infer_instance

/-- The vertices of the relation set (every edge endpoint, once). -/
def nodesOf (es : List (String × String)) : List String :=
  (es.map Prod.fst ++ es.map Prod.snd).dedup

/-- All vertex lists of length `k` over the alphabet `xs`. -/
def tuples (xs : List String) : Nat → List (List String)
  | 0 => [[]]
  | n + 1 => (tuples xs n).flatMap (fun t => xs.map (fun x => x :: t))

/-- Modelled from the spec: `cyclePaths()` with no limits — enumerate
every simple cycle of the edge set (cycle representations have length
`2 … |nodes| + 1`, so the enumeration is finite and complete). -/
def getCyclePaths (es : List (String × String)) : List (List String) :=
  (List.range (nodesOf es).length).flatMap
    (fun k => (tuples (nodesOf es) (k + 2)).filter
      (fun l => decide (IsSimpleCycle es l)))

/-- Membership in `tuples`: exactly the lists of the demanded length
over the alphabet. -/
theorem mem_tuples (xs : List String) :
    ∀ (k : Nat) (l : List String),
      l ∈ tuples xs k ↔ l.length = k ∧ ∀ x ∈ l, x ∈ xs := by
  intro k
  induction k with
  | zero =>
    intro l
    simp only [tuples, List.mem_singleton]
    constructor
    · rintro rfl
      simp
    · rintro ⟨h, _⟩
      exact List.length_eq_zero.mp h
  | succ n ih =>
    intro l
    simp only [tuples, List.mem_flatMap, List.mem_map]
    constructor
    · rintro ⟨t, ht, x, hx, rfl⟩
      obtain ⟨hlen, hmem⟩ := (ih t).mp ht
      refine ⟨by simp [hlen], ?_⟩
      intro y hy
      rcases List.mem_cons.mp hy with rfl | hy'
      · exact hx
      · exact hmem y hy'
    · rintro ⟨hlen, hmem⟩
      cases l with
      | nil => cases hlen
      | cons x t =>
        exact ⟨t, (ih t).mpr ⟨by simpa using hlen,
            fun y hy => hmem y (List.mem_cons_of_mem _ hy)⟩,
          x, hmem x (List.mem_cons_self _ _), rfl⟩

/-- Membership in the cycle enumeration: the simple cycles whose
vertices lie in `nodesOf es` and whose length is bounded by the vertex
count plus one. -/
theorem mem_getCyclePaths (es : List (String × String)) (l : List String) :
    l ∈ getCyclePaths es ↔
      IsSimpleCycle es l ∧ l.length ≤ (nodesOf es).length + 1 ∧
        ∀ x ∈ l, x ∈ nodesOf es := by
  simp only [getCyclePaths, List.mem_flatMap, List.mem_range, List.mem_filter,
    decide_eq_true_eq, mem_tuples]
  constructor
  · rintro ⟨k, hk, ⟨hlen, hmem⟩, hsc⟩
    exact ⟨hsc, by omega, hmem⟩
  · rintro ⟨hsc, hle, hmem⟩
    have h2 : 2 ≤ l.length := hsc.1
    exact ⟨l.length - 2, by omega, ⟨by omega, hmem⟩, hsc⟩

/-- Every vertex of an edge-chained list with at least two elements is a
node of the graph. -/
theorem chain_mem_nodes (es : List (String × String)) :
    ∀ (l : List String), l.Chain' (hasEdge es) → 2 ≤ l.length →
      ∀ x ∈ l, x ∈ nodesOf es := by
  intro l
  induction l with
  | nil =>
    intro _ h2
    simp at h2
  | cons a tl ih =>
    intro hch h2 x hx
    cases tl with
    | nil => simp at h2
    | cons b tl' =>
      have hedge : hasEdge es a b := (List.chain'_cons.mp hch).1
      have hchtl : (b :: tl').Chain' (hasEdge es) := (List.chain'_cons.mp hch).2
      rcases List.mem_cons.mp hx with rfl | hx'
      · have : x ∈ es.map Prod.fst := List.mem_map.mpr ⟨(x, b), hedge, rfl⟩
        exact List.mem_dedup.mpr (List.mem_append.mpr (Or.inl this))
      · cases tl' with
        | nil =>
          have hxb : x = b := by simpa using hx'
          subst hxb
          have : x ∈ es.map Prod.snd := List.mem_map.mpr ⟨(a, x), hedge, rfl⟩
          exact List.mem_dedup.mpr (List.mem_append.mpr (Or.inr this))
        | cons c tl'' =>
          exact ih hchtl (by simp) x hx'

/-- A list that is not duplicate-free contains some element twice, in an
explicit decomposition. -/
theorem dup_decomp :
    ∀ (l : List String), ¬ l.Nodup →
      ∃ x s t u, l = s ++ (x :: (t ++ (x :: u))) := by
  intro l
  induction l with
  | nil =>
    intro h
    exact absurd List.nodup_nil h
  | cons a tl ih =>
    intro h
    by_cases ha : a ∈ tl
    · obtain ⟨s, t, hst⟩ := List.append_of_mem ha
      exact ⟨a, [], s, t, by simp [hst]⟩
    · have htl : ¬ tl.Nodup := fun hn => h (List.nodup_cons.mpr ⟨ha, hn⟩)
      obtain ⟨x, s, t, u, hdec⟩ := ih htl
      exact ⟨x, a :: s, t, u, by simp [hdec]⟩

/-- Every closed edge-chain (first element equals last, length at least
two) contains a simple cycle: repeat-free closed chains are simple
cycles, and a repetition yields a strictly shorter closed chain. -/
theorem closed_walk_simple_cycle (es : List (String × String)) :
    ∀ (n : Nat) (w : List String), w.length ≤ n → 2 ≤ w.length →
      w.Chain' (hasEdge es) → w.head? = w.getLast? →
      ∃ c, IsSimpleCycle es c := by
  intro n
  induction n with
  | zero =>
    intro w hle h2 _ _
    omega
  | succ n ih =>
    intro w hle h2 hch hhl
    by_cases hnd : w.dropLast.Nodup
    · exact ⟨w, h2, hch, hhl, hnd⟩
    · obtain ⟨x, s, t, u, hdec⟩ := dup_decomp _ hnd
      have hwne : w ≠ [] := by
        intro hw
        rw [hw] at h2
        simp at h2
      have hw : w = s ++ (x :: (t ++ (x :: (u ++ [w.getLast hwne])))) := by
        conv_lhs => rw [← List.dropLast_append_getLast hwne]
        rw [hdec]
        simp
      have hch2 : (s ++ (x :: (t ++ (x :: (u ++ [w.getLast hwne]))))).Chain'
          (hasEdge es) := hw ▸ hch
      have hchm : (x :: (t ++ (x :: (u ++ [w.getLast hwne])))).Chain' (hasEdge es) :=
        (List.chain'_append.mp hch2).2.1
      have hsplit : (x :: (t ++ (x :: (u ++ [w.getLast hwne])))) =
          (x :: (t ++ [x])) ++ (u ++ [w.getLast hwne]) := by simp
      have hchc : (x :: (t ++ [x])).Chain' (hasEdge es) :=
        (List.chain'_append.mp (hsplit ▸ hchm)).1
      apply ih (x :: (t ++ [x]))
      · have hwlen := hle
        rw [hw] at hwlen
        simp at hwlen
        simp
        omega
      · simp
      · exact hchc
      · have hfin : (x :: (t ++ [x])) = (x :: t) ++ [x] := by simp
        rw [hfin, List.getLast?_concat]
        rfl

/-- Two distinct, mutually reachable vertices yield a simple cycle. -/
theorem cycle_of_mutual_reach (es : List (String × String)) (u v : String)
    (hne : u ≠ v) (huv : Reaches es u v) (hvu : Reaches es v u) :
    ∃ c, IsSimpleCycle es c := by
  obtain ⟨l1, hl1ne, hl1ch, hl1h, hl1l⟩ := huv
  obtain ⟨l2, hl2ne, hl2ch, hl2h, hl2l⟩ := hvu
  cases l2 with
  | nil => exact absurd rfl hl2ne
  | cons v0 tl =>
    have hv0 : v0 = v := by simpa using hl2h
    subst hv0
    cases tl with
    | nil =>
      have : v0 = u := by simpa using hl2l
      exact absurd this.symm hne
    | cons b tl' =>
      have hlink : hasEdge es v0 b := (List.chain'_cons.mp hl2ch).1
      have hchtl : (b :: tl').Chain' (hasEdge es) := (List.chain'_cons.mp hl2ch).2
      have hwch : (l1 ++ (b :: tl')).Chain' (hasEdge es) := by
        rw [List.chain'_append]
        refine ⟨hl1ch, hchtl, ?_⟩
        intro x hx y hy
        have hxv : x = v0 := by
          rw [hl1l] at hx
          rw [Option.mem_some_iff] at hx
          exact hx.symm
        have hyb : y = b := by
          rw [show (b :: tl').head? = some b from rfl, Option.mem_some_iff] at hy
          exact hy.symm
        rw [hxv, hyb]
        exact hlink
      cases l1 with
      | nil => exact absurd rfl hl1ne
      | cons w0 l1' =>
        have hw0 : w0 = u := by simpa using hl1h
        subst hw0
        have hlast : ((w0 :: l1') ++ (b :: tl')).getLast? = some w0 := by
          rw [List.getLast?_append]
          have h2 : (b :: tl').getLast? = some w0 := by
            have h3 := hl2l
            rwa [List.getLast?_cons_cons] at h3
          rw [h2]
          rfl
        apply closed_walk_simple_cycle es ((w0 :: l1') ++ (b :: tl')).length
          ((w0 :: l1') ++ (b :: tl')) le_rfl
        · simp
          omega
        · exact hwch
        · rw [hlast]
          rfl

/-- A simple cycle witnesses the spec's `hasCycle` condition: a
length-two cycle `[a, a]` is a self-loop, and a longer one makes its
first two (distinct) vertices mutually reachable. -/
theorem cycle_to_hasCycle (es : List (String × String)) (c : List String)
    (h : IsSimpleCycle es c) : HasCycleSpec es := by
  obtain ⟨h2, hch, hhl, hnd⟩ := h
  cases c with
  | nil => simp at h2
  | cons a tl =>
    cases tl with
    | nil => simp at h2
    | cons b r =>
      have hedge : hasEdge es a b := (List.chain'_cons.mp hch).1
      have hchtl : (b :: r).Chain' (hasEdge es) := (List.chain'_cons.mp hch).2
      cases r with
      | nil =>
        have hab : a = b := by
          have : some a = some b := by simpa using hhl
          simpa using this
        exact Or.inl ⟨a, hab ▸ hedge⟩
      | cons c0 r' =>
        have hlastab : (b :: c0 :: r').getLast? = some a := by
          have := hhl
          rw [List.getLast?_cons_cons] at this
          exact this.symm
        have hdl : (a :: b :: c0 :: r').dropLast =
            a :: (b :: c0 :: r').dropLast := rfl
        have hbdl : b ∈ (b :: c0 :: r').dropLast := by
          simp [List.dropLast]
        have hanb : a ≠ b := by
          rw [hdl] at hnd
          intro hab
          exact (List.nodup_cons.mp hnd).1 (hab ▸ hbdl)
        refine Or.inr ⟨a, b, hanb, ⟨[a, b], by simp, ?_, rfl, rfl⟩,
          ⟨b :: c0 :: r', by simp, hchtl, rfl, hlastab⟩⟩
        simpa [List.chain'_cons, List.chain'_singleton] using hedge

/-- The spec-level equivalence: the graph has a cycle (self-loop or
non-trivial SCC) iff the simple-cycle enumeration is non-empty. -/
theorem hasCycleSpec_iff_cyclePaths (es : List (String × String)) :
    HasCycleSpec es ↔ getCyclePaths es ≠ [] := by
  constructor
  · intro h
    have hcyc : ∃ c, IsSimpleCycle es c := by
      rcases h with ⟨v, hv⟩ | ⟨u, v, hne, huv, hvu⟩
      · refine ⟨[v, v], by simp, ?_, rfl, by simp⟩
        simpa [List.chain'_cons, List.chain'_singleton] using hv
      · exact cycle_of_mutual_reach es u v hne huv hvu
    obtain ⟨c, hc⟩ := hcyc
    have hmemc : c ∈ getCyclePaths es := by
      rw [mem_getCyclePaths]
      have hnodes : ∀ x ∈ c, x ∈ nodesOf es :=
        chain_mem_nodes es c hc.2.1 hc.1
      refine ⟨hc, ?_, hnodes⟩
      have hsub : c.dropLast ⊆ nodesOf es := fun x hx =>
        hnodes x (List.dropLast_subset _ hx)
      have hlen : c.dropLast.length ≤ (nodesOf es).length :=
        List.Subperm.length_le (List.Nodup.subperm hc.2.2.2 hsub)
      have hdl : c.dropLast.length = c.length - 1 := List.length_dropLast c
      omega
    intro hnil
    rw [hnil] at hmemc
    cases hmemc
  · intro h
    obtain ⟨c, hc⟩ := List.exists_mem_of_ne_nil _ h
    exact cycle_to_hasCycle es c ((mem_getCyclePaths es c).mp hc).1

/-- The edge list recorded in an adjacency map (all entries, flattened). -/
def adjEdges (m : Adj) : List (String × String) :=
  m.flatMap (fun e => e.2.map (fun d => (e.1, d)))

/-- The edge set of a graph state, read off its forward adjacency. -/
def graphEdges (g : DepGraph) : List (String × String) :=
  adjEdges g.adjacency

/-- Modelled from the spec: `hasCycle()` on a graph state. -/
def hasCycle (g : DepGraph) : Prop :=
  HasCycleSpec (graphEdges g)

/-- Modelled from the spec: `getCyclePaths()` on a graph state. -/
def getCyclePathsG (g : DepGraph) : List (List String) :=
  getCyclePaths (graphEdges g)

/-- Membership in the flattened edges of a non-empty adjacency map. -/
theorem mem_adjEdges_cons (c : String) (ws : List String) (rest : Adj)
    (a b : String) :
    (a, b) ∈ adjEdges ((c, ws) :: rest) ↔
      (a = c ∧ b ∈ ws) ∨ (a, b) ∈ adjEdges rest := by
  simp only [adjEdges, List.flatMap_cons, List.mem_append, List.mem_map]
  constructor
  · rintro (⟨d, hd, heq⟩ | h)
    · cases heq
      exact Or.inl ⟨rfl, hd⟩
    · exact Or.inr h
  · rintro (⟨rfl, hb⟩ | h)
    · exact Or.inl ⟨b, hb, rfl⟩
    · exact Or.inr h

/-- Flattened-edge membership after `addToAdj`. -/
theorem mem_adjEdges_addToAdj (m : Adj) (k v a b : String) :
    (a, b) ∈ adjEdges (addToAdj m k v) ↔
      (a = k ∧ b = v) ∨ (a, b) ∈ adjEdges m := by
  induction m with
  | nil =>
    rw [addToAdj, mem_adjEdges_cons]
    simp [adjEdges]
  | cons e rest ih =>
    obtain ⟨c, vs⟩ := e
    by_cases hc : c = k
    · rw [addToAdj, if_pos hc, mem_adjEdges_cons, mem_adjEdges_cons,
        mem_addOnce]
      constructor
      · rintro (⟨rfl, rfl | hb⟩ | h)
        · exact Or.inl ⟨hc, rfl⟩
        · exact Or.inr (Or.inl ⟨rfl, hb⟩)
        · exact Or.inr (Or.inr h)
      · rintro (⟨rfl, rfl⟩ | ⟨rfl, hb⟩ | h)
        · exact Or.inl ⟨hc.symm, Or.inl rfl⟩
        · exact Or.inl ⟨rfl, Or.inr hb⟩
        · exact Or.inr h
    · rw [addToAdj, if_neg hc, mem_adjEdges_cons, mem_adjEdges_cons, ih]
      tauto

/-- Flattened-edge membership after inserting a list of edges. -/
theorem mem_graphEdges_addEdges (ps : List (String × String)) (g : DepGraph)
    (a b : String) :
    (a, b) ∈ graphEdges (addEdges g ps) ↔
      (a, b) ∈ ps ∨ (a, b) ∈ graphEdges g := by
  induction ps generalizing g with
  | nil => simp [addEdges]
  | cons p tl ih =>
    obtain ⟨s, d⟩ := p
    rw [addEdges, List.foldl_cons]
    have step := ih (addEdgeG g s d)
    rw [addEdges] at step
    rw [step]
    unfold graphEdges addEdgeG
    rw [mem_adjEdges_addToAdj]
    constructor
    · rintro (h | ⟨rfl, rfl⟩ | h)
      · exact Or.inl (List.mem_cons_of_mem _ h)
      · exact Or.inl (List.mem_cons_self _ _)
      · exact Or.inr h
    · rintro (h | h)
      · rcases List.mem_cons.mp h with h' | h'
        · rw [Prod.ext_iff] at h'
          exact Or.inr (Or.inl h')
        · exact Or.inl h'
      · exact Or.inr (Or.inr h)

/-- A freshly built graph records exactly the relation set as edges. -/
theorem mem_graphEdges_buildGraph (rels : List (String × String))
    (a b : String) :
    (a, b) ∈ graphEdges (buildGraph rels) ↔ (a, b) ∈ rels := by
  rw [buildGraph, mem_graphEdges_addEdges]
  simp [graphEdges, adjEdges]

/-- C1: for every dependency graph built from a finite set of relation
edges (self-loops included), `hasCycle()` holds iff `cyclePaths()`
returns a non-empty list; in particular any self-loop edge makes
`hasCycle()` true. -/
theorem hasCycle_iff_cyclePaths_nonempty (rels : List (String × String)) :
    (hasCycle (buildGraph rels) ↔
      0 < (getCyclePathsG (buildGraph rels)).length) ∧
    (∀ v, (v, v) ∈ rels → hasCycle (buildGraph rels)) := by
  constructor
  · unfold hasCycle getCyclePathsG
    rw [hasCycleSpec_iff_cyclePaths]
    exact ⟨fun h => List.length_pos.mpr h, fun h => List.length_pos.mp h⟩
  · intro v hv
    unfold hasCycle
    refine Or.inl ⟨v, ?_⟩
    unfold hasEdge
    exact (mem_graphEdges_buildGraph rels v v).mpr hv

/-- Witness for C1 at a concrete input: the single self-loop edge
`a → a` gives `hasCycle` and a non-empty cycle enumeration. -/
theorem hasCycle_iff_cyclePaths_nonempty_witness :
    hasCycle (buildGraph [("a", "a")]) ∧
      0 < (getCyclePathsG (buildGraph [("a", "a")])).length :=
  have h := hasCycle_iff_cyclePaths_nonempty [("a", "a")]
  have hc : hasCycle (buildGraph [("a", "a")]) := h.2 "a" (by decide)
  ⟨hc, h.1.mp hc⟩

end Codeledger
